import Mathlib

/-!
Verification of the Go-game rules engine in `go.go`.

The engine state (`Board`) holds an N×N grid of `Stone` values, the player
to move (`turn`) and the count of consecutive passes (`passes`).  The grid
is a list of rows of cells, mirroring the Go slice-of-slices `[][]Stone`
indexed `grid[row][col]`; every access the engine performs is guarded by a
bounds check, so the total read/write wrappers `cellAt`/`setCell` (which
default to `Empty` / do nothing off the underlying lists) coincide with the
source's unguarded slice indexing wherever the source performs it.

The two recursive procedures of the source, `hasLiberties` (depth-first
liberty search with a visited set threaded through the recursion, mirroring
Go's in-place mutated `map[[2]int]bool`) and `removeGroup`, are embedded
with an explicit fuel argument bounding the recursion depth.  In the Go
program each productive `hasLiberties` frame adds one fresh in-bounds
coordinate to the visited map, and each productive `removeGroup` frame
clears one stone before recursing, so the recursion depth never exceeds
the number of board cells; the fuel `size² + 1` is therefore never
exhausted and the embedding computes exactly what the source computes.
-/

namespace GoGame

/-- The three cell states of `type Stone int` (`Empty`, `Black`, `White`). -/
inductive Stone where
  | Empty : Stone
  | Black : Stone
  | White : Stone
deriving DecidableEq, Repr

/-- A grid coordinate `(row, col)`, as Go `int`s. -/
abbrev Pos := Int × Int

/-- A direction offset, one of the four edge-adjacent displacements. -/
abbrev Dir := Int × Int

/-- The grid `[][]Stone`: a list of rows, each a list of cells. -/
abbrev Grid := List (List Stone)

/-- The four edge-adjacent direction offsets, in the order the source lists
them: `{{-1, 0}, {1, 0}, {0, -1}, {0, 1}}`. -/
def directions : List Dir := [(-1, 0), (1, 0), (0, -1), (0, 1)]

/-- Coordinate displacement: `(row+dir[0], col+dir[1])`. -/
def posAdd (p : Pos) (d : Dir) : Pos := (p.1 + d.1, p.2 + d.2)

/-- The four edge-adjacent neighbour cells of `p`. -/
def neighbors (p : Pos) : List Pos := directions.map (posAdd p)

/-- Read `grid[row][col]`; off the lists (which the bounds-checked source
never does) the read defaults to `Empty`. -/
def cellAt (g : Grid) (p : Pos) : Stone :=
  (g.getD p.1.toNat []).getD p.2.toNat Stone.Empty

/-- Write `grid[row][col] = s`; off the lists the write does nothing. -/
def setCell (g : Grid) (p : Pos) (s : Stone) : Grid :=
  g.set p.1.toNat ((g.getD p.1.toNat []).set p.2.toNat s)

/-- `isInBounds`: `row >= 0 && row < b.size && col >= 0 && col < b.size`. -/
def isInBounds (n : Int) (p : Pos) : Bool :=
  decide (0 ≤ p.1 ∧ p.1 < n ∧ 0 ≤ p.2 ∧ p.2 < n)

/-- The engine state: `size`, `grid`, `turn`, `passes` of `type Board`. -/
structure Board where
  size : Int
  grid : Grid
  turn : Stone
  passes : Int

/-- The board built by the body of `NewBoard` on a size accepted by `make`:
all cells `Empty`, `turn = Black`, `passes = 0` (the Go zero value). -/
def mkBoard (size : Int) : Board :=
  { size := size,
    grid := List.replicate size.toNat (List.replicate size.toNat Stone.Empty),
    turn := Stone.Black, passes := 0 }

/-- `NewBoard(size)`.  `make([][]Stone, size)` panics at run time for a
negative size (modelled as `none`); any size `≥ 0` (including `0`) is
accepted and yields the all-`Empty` board with Black to move. -/
def NewBoard (size : Int) : Option Board :=
  if size < 0 then none else some (mkBoard size)

/-- `IsValidMove`: in bounds and the target cell is `Empty`. -/
def IsValidMove (b : Board) (row col : Int) : Bool :=
  if row < 0 ∨ row ≥ b.size ∨ col < 0 ∨ col ≥ b.size then false
  else decide (cellAt b.grid (row, col) = Stone.Empty)

/-- `nextTurn`: Black becomes White, anything else becomes Black. -/
def nextTurn (s : Stone) : Stone :=
  if s = Stone.Black then Stone.White else Stone.Black

/-- The `opponent` computed at the top of `PlaceStone`: `White`, unless the
mover is `White`, in which case `Black`. -/
def opponentOf (s : Stone) : Stone :=
  if s = Stone.White then Stone.Black else Stone.White

/-- The direction loop inside `hasLiberties`, abstracted over the recursive
call `recur` (the next-smaller-fuel instance of the search).  For each
direction in order: skip out-of-bounds neighbours; an `Empty` neighbour is a
liberty (return `true`); a same-stone neighbour is searched recursively,
with the visited set threaded on through later directions exactly as Go's
mutable map is. -/
def hasLibLoopF (g : Grid) (n : Int) (recur : Pos → List Pos → Bool × List Pos)
    (stone : Stone) (p : Pos) : List Dir → List Pos → Bool × List Pos
  | [], visited => (false, visited)
  | d :: ds, visited =>
    if isInBounds n (posAdd p d) = true then
      if cellAt g (posAdd p d) = Stone.Empty then (true, visited)
      else if cellAt g (posAdd p d) = stone then
        match recur (posAdd p d) visited with
        | (true, v) => (true, v)
        | (false, v) => hasLibLoopF g n recur stone p ds v
      else hasLibLoopF g n recur stone p ds visited
    else hasLibLoopF g n recur stone p ds visited

/-- `hasLiberties(row, col, visited)`: return `false` on an already-visited
cell, otherwise mark the cell visited and scan the four directions. -/
def hasLibertiesAux (g : Grid) (n : Int) : Nat → Pos → List Pos → Bool × List Pos
  | 0, _, visited => (false, visited)
  | fuel + 1, p, visited =>
    if p ∈ visited then (false, visited)
    else hasLibLoopF g n (hasLibertiesAux g n fuel) (cellAt g p) p directions (p :: visited)

/-- Fuel bounding the depth of the two recursive searches: one more than the
number of board cells. -/
def searchFuel (n : Int) : Nat := n.toNat * n.toNat + 1

/-- `hasLiberties` as called by `PlaceStone`: a fresh empty visited set. -/
def hasLiberties (g : Grid) (n : Int) (p : Pos) : Bool :=
  (hasLibertiesAux g n (searchFuel n) p []).1

/-- The direction loop inside `removeGroup`, abstracted over the recursive
call: recurse into every in-bounds neighbour still holding the group's
stone colour, threading the grid through. -/
def removeGroupLoopF (n : Int) (recur : Grid → Pos → Grid)
    (stone : Stone) (p : Pos) : List Dir → Grid → Grid
  | [], g => g
  | d :: ds, g =>
    if isInBounds n (posAdd p d) = true ∧ cellAt g (posAdd p d) = stone then
      removeGroupLoopF n recur stone p ds (recur g (posAdd p d))
    else removeGroupLoopF n recur stone p ds g

/-- `removeGroup(row, col)`: return on an `Empty` cell, otherwise clear the
cell and recurse into same-coloured in-bounds neighbours. -/
def removeGroupAux (n : Int) : Nat → Grid → Pos → Grid
  | 0, g, _ => g
  | fuel + 1, g, p =>
    if cellAt g p = Stone.Empty then g
    else removeGroupLoopF n (removeGroupAux n fuel) (cellAt g p) p directions
      (setCell g p Stone.Empty)

/-- `removeGroup` at full fuel. -/
def removeGroup (g : Grid) (n : Int) (p : Pos) : Grid :=
  removeGroupAux n (searchFuel n) g p

/-- One iteration of the capture loop in `PlaceStone`: if the neighbour
`(row,col)+d` is in bounds and holds the opponent's stone and its group has
no liberties, remove the group. -/
def captureStep (n : Int) (opp : Stone) (p0 : Pos) (g : Grid) (d : Dir) : Grid :=
  if isInBounds n (posAdd p0 d) = true ∧ cellAt g (posAdd p0 d) = opp then
    if hasLiberties g n (posAdd p0 d) = false then removeGroup g n (posAdd p0 d) else g
  else g

/-- The capture loop of `PlaceStone` over the four directions in order. -/
def captureLoop (n : Int) (opp : Stone) (p0 : Pos) : List Dir → Grid → Grid
  | [], g => g
  | d :: ds, g => captureLoop n opp p0 ds (captureStep n opp p0 g d)

/-- The grid after the tentative placement `grid[row][col] = b.turn` followed
by the capture loop — the grid on which `PlaceStone` runs its suicide check. -/
def postCapture (b : Board) (row col : Int) : Grid :=
  captureLoop b.size (opponentOf b.turn) (row, col) directions
    (setCell b.grid (row, col) b.turn)

/-- `PlaceStone(row, col) bool`: reject invalid coordinates; place the stone;
capture adjacent libertyless opponent groups; if the placed stone's group
then has no liberties, clear the placed cell and reject (suicide); otherwise
reset `passes`, flip `turn` and accept.  Returns the Go `bool` result paired
with the updated receiver state. -/
def PlaceStone (b : Board) (row col : Int) : Bool × Board :=
  if IsValidMove b row col = true then
    if hasLiberties (postCapture b row col) b.size (row, col) = true then
      (true, { b with grid := postCapture b row col,
                      passes := 0,
                      turn := nextTurn b.turn })
    else
      (false, { b with grid := setCell (postCapture b row col) (row, col) Stone.Empty })
  else (false, b)

/-- `Pass()`: increment `passes`, flip `turn`. -/
def Pass (b : Board) : Board :=
  { b with passes := b.passes + 1, turn := nextTurn b.turn }

/-- `IsGameOver()`: `passes >= 2`. -/
def IsGameOver (b : Board) : Bool :=
  decide (b.passes ≥ 2)

/-! ### Reachability relations -/

/-- States reachable from a freshly constructed board by an arbitrary
sequence of `PlaceStone` and `Pass` calls (rejected placements included). -/
inductive ReachableU : Board → Prop where
  | start (size : Int) : ReachableU (mkBoard size)
  | place (b : Board) (row col : Int) :
      ReachableU b → ReachableU (PlaceStone b row col).2
  | pass (b : Board) : ReachableU b → ReachableU (Pass b)

/-- States reachable when every operation is invoked only while the game is
not yet over — the calling discipline of the program's driving loop, which
tests `IsGameOver` before admitting each move. -/
inductive ReachableG : Board → Prop where
  | start (size : Int) : ReachableG (mkBoard size)
  | place (b : Board) (row col : Int) :
      ReachableG b → IsGameOver b = false → ReachableG (PlaceStone b row col).2
  | pass (b : Board) : ReachableG b → IsGameOver b = false → ReachableG (Pass b)

/-- `ReachN b k`: `b` is reachable with exactly `k` successful operations
(accepted placements and passes); rejected placements do not count. -/
inductive ReachN : Board → Nat → Prop where
  | start (size : Int) : ReachN (mkBoard size) 0
  | placeAcc (b : Board) (row col : Int) (k : Nat) :
      ReachN b k → (PlaceStone b row col).1 = true →
      ReachN (PlaceStone b row col).2 (k + 1)
  | placeRej (b : Board) (row col : Int) (k : Nat) :
      ReachN b k → (PlaceStone b row col).1 = false →
      ReachN (PlaceStone b row col).2 k
  | pass (b : Board) (k : Nat) : ReachN b k → ReachN (Pass b) (k + 1)

/-! ### Grid access lemmas -/

/-- An `n × n` grid of rows of the right length (the shape `NewBoard` builds
and every engine operation preserves). -/
def WFGrid (n : Int) (g : Grid) : Prop :=
  g.length = n.toNat ∧ ∀ row ∈ g, row.length = n.toNat

lemma cellAt_of_idx_eq (g : Grid) {p q : Pos}
    (h1 : p.1.toNat = q.1.toNat) (h2 : p.2.toNat = q.2.toNat) :
    cellAt g p = cellAt g q := by
  simp [cellAt, h1, h2]

lemma getD_set_self {a : Type} (l : List a) (i : Nat) (x d : a) (h : i < l.length) :
    (l.set i x).getD i d = x := by
  simp [List.getD_eq_getElem?_getD, List.getElem?_set_self h]

lemma getD_set_ne {a : Type} (l : List a) (i j : Nat) (x d : a) (h : i ≠ j) :
    (l.set i x).getD j d = l.getD j d := by
  simp [List.getD_eq_getElem?_getD, List.getElem?_set_ne h]

lemma getD_mem {a : Type} (l : List a) (i : Nat) (d : a) (h : i < l.length) :
    l.getD i d ∈ l := by
  rw [List.getD_eq_getElem?_getD, List.getElem?_eq_getElem h]
  exact List.getElem_mem h

/-- One read/write law covering every case: a `setCell` changes exactly the
in-range cell it addresses, where cells are addressed by the `toNat` images
of their coordinates (as `cellAt` reads them). -/
lemma cellAt_setCell (g : Grid) (p q : Pos) (s : Stone) :
    cellAt (setCell g p s) q =
      if p.1.toNat = q.1.toNat ∧ p.2.toNat = q.2.toNat ∧ p.1.toNat < g.length ∧
          p.2.toNat < (g.getD p.1.toNat []).length
      then s else cellAt g q := by
  unfold cellAt setCell
  by_cases h1 : p.1.toNat = q.1.toNat
  · rw [← h1]
    by_cases hrow : p.1.toNat < g.length
    · rw [getD_set_self g p.1.toNat _ [] hrow]
      by_cases h2 : p.2.toNat = q.2.toNat
      · rw [← h2]
        by_cases hcol : p.2.toNat < (g.getD p.1.toNat []).length
        · rw [getD_set_self _ _ _ _ hcol, if_pos ⟨rfl, rfl, hrow, hcol⟩]
        · rw [List.set_eq_of_length_le (by omega),
            if_neg (by intro hx; exact hcol hx.2.2.2)]
      · rw [getD_set_ne _ _ _ _ _ h2, if_neg (by intro hx; exact h2 hx.2.1)]
    · rw [List.set_eq_of_length_le (by omega),
        if_neg (by intro hx; exact hrow hx.2.2.1)]
  · rw [getD_set_ne _ _ _ _ _ h1, if_neg (by intro hx; exact h1 hx.1)]

lemma cellAt_setCell_ne (g : Grid) (p q : Pos) (s : Stone)
    (h : p.1.toNat ≠ q.1.toNat ∨ p.2.toNat ≠ q.2.toNat) :
    cellAt (setCell g p s) q = cellAt g q := by
  rw [cellAt_setCell, if_neg]
  intro hx
  rcases h with h | h
  · exact h hx.1
  · exact h hx.2.1

lemma cellAt_setCell_self (g : Grid) (p : Pos) (s : Stone)
    (hr : p.1.toNat < g.length) (hc : p.2.toNat < (g.getD p.1.toNat []).length) :
    cellAt (setCell g p s) p = s := by
  rw [cellAt_setCell, if_pos ⟨rfl, rfl, hr, hc⟩]

lemma cellAt_setCell_pointwise (g : Grid) (p q : Pos) (s : Stone) :
    cellAt (setCell g p s) q = cellAt g q ∨ cellAt (setCell g p s) q = s := by
  rw [cellAt_setCell]
  split
  · exact Or.inr rfl
  · exact Or.inl rfl

lemma WFGrid_setCell {n : Int} {g : Grid} (hg : WFGrid n g) (p : Pos) (s : Stone) :
    WFGrid n (setCell g p s) := by
  obtain ⟨hlen, hrows⟩ := hg
  by_cases hrow : p.1.toNat < g.length
  · refine ⟨by simp [setCell, hlen], ?_⟩
    intro row hmem
    rcases List.mem_or_eq_of_mem_set hmem with h | h
    · exact hrows _ h
    · subst h
      rw [List.length_set]
      exact hrows _ (getD_mem g p.1.toNat [] hrow)
  · rw [show setCell g p s = g from List.set_eq_of_length_le (by omega)]
    exact ⟨hlen, hrows⟩

lemma isInBounds_iff {n : Int} {p : Pos} :
    isInBounds n p = true ↔ 0 ≤ p.1 ∧ p.1 < n ∧ 0 ≤ p.2 ∧ p.2 < n := by
  simp [isInBounds]

lemma isInBounds_lt {n : Int} {g : Grid} {p : Pos}
    (h : isInBounds n p = true) (hg : WFGrid n g) :
    p.1.toNat < g.length ∧ p.2.toNat < (g.getD p.1.toNat []).length := by
  obtain ⟨h1, h2, h3, h4⟩ := isInBounds_iff.mp h
  obtain ⟨hlen, hrows⟩ := hg
  have hr : p.1.toNat < g.length := by omega
  refine ⟨hr, ?_⟩
  have hrow : g[p.1.toNat]? = some (g.getD p.1.toNat []) := by
    rcases hi : g[p.1.toNat]? with _ | row
    · exact absurd (List.getElem?_eq_none_iff.mp hi) (by omega)
    · simp [hi]
  have := hrows _ (List.getElem?_mem hrow)
  omega

lemma isInBounds_pos_eq {n : Int} {p q : Pos}
    (hp : isInBounds n p = true) (hq : isInBounds n q = true)
    (h1 : p.1.toNat = q.1.toNat) (h2 : p.2.toNat = q.2.toNat) : p = q := by
  obtain ⟨a1, a2, a3, a4⟩ := isInBounds_iff.mp hp
  obtain ⟨b1, b2, b3, b4⟩ := isInBounds_iff.mp hq
  have : p.1 = q.1 := by omega
  have : p.2 = q.2 := by omega
  exact Prod.ext (by omega) (by omega)

/-! ### Control-flow of `PlaceStone` -/

/-- The three outcomes of `PlaceStone`: accepted; rejected by the suicide
check (placed cell rolled back, `turn`/`passes` untouched); rejected up
front by `IsValidMove` (state returned as is). -/
lemma placeStone_cases (b : Board) (row col : Int) :
    (IsValidMove b row col = true ∧
      hasLiberties (postCapture b row col) b.size (row, col) = true ∧
      PlaceStone b row col =
        (true, { b with grid := postCapture b row col,
                        passes := 0,
                        turn := nextTurn b.turn }))
    ∨ (IsValidMove b row col = true ∧
      hasLiberties (postCapture b row col) b.size (row, col) = false ∧
      PlaceStone b row col =
        (false, { b with grid := setCell (postCapture b row col) (row, col) Stone.Empty }))
    ∨ (IsValidMove b row col = false ∧ PlaceStone b row col = (false, b)) := by
  rcases Bool.eq_false_or_eq_true (IsValidMove b row col) with hv | hv
  · rcases Bool.eq_false_or_eq_true
      (hasLiberties (postCapture b row col) b.size (row, col)) with hl | hl
    · exact Or.inl ⟨hv, hl, by simp [PlaceStone, hv, hl]⟩
    · exact Or.inr (Or.inl ⟨hv, hl, by simp [PlaceStone, hv, hl]⟩)
  · exact Or.inr (Or.inr ⟨hv, by simp [PlaceStone, hv]⟩)

lemma placeStone_accepted {b : Board} {row col : Int}
    (h : (PlaceStone b row col).1 = true) :
    IsValidMove b row col = true ∧
    hasLiberties (postCapture b row col) b.size (row, col) = true ∧
    (PlaceStone b row col).2 =
      { b with grid := postCapture b row col,
               passes := 0,
               turn := nextTurn b.turn } := by
  rcases placeStone_cases b row col with ⟨h1, h2, h3⟩ | ⟨h1, h2, h3⟩ | ⟨h1, h3⟩ <;>
    rw [h3] at h ⊢
  · exact ⟨h1, h2, rfl⟩
  · simp at h
  · simp at h

/-- On any rejection, `turn` and `passes` (and `size`) are unchanged; the
grid statement needs the capture analysis and is proved separately. -/
lemma placeStone_rejected_fields {b : Board} {row col : Int}
    (h : (PlaceStone b row col).1 = false) :
    (PlaceStone b row col).2.turn = b.turn ∧
    (PlaceStone b row col).2.passes = b.passes ∧
    (PlaceStone b row col).2.size = b.size := by
  rcases placeStone_cases b row col with ⟨h1, h2, h3⟩ | ⟨h1, h2, h3⟩ | ⟨h1, h3⟩ <;>
    rw [h3] at h ⊢
  · simp at h
  · exact ⟨rfl, rfl, rfl⟩
  · exact ⟨rfl, rfl, rfl⟩

lemma placeStone_size (b : Board) (row col : Int) :
    (PlaceStone b row col).2.size = b.size := by
  rcases placeStone_cases b row col with ⟨_, _, h3⟩ | ⟨_, _, h3⟩ | ⟨_, h3⟩ <;> rw [h3]

lemma isValidMove_iff {b : Board} {row col : Int} :
    IsValidMove b row col = true ↔
      isInBounds b.size (row, col) = true ∧ cellAt b.grid (row, col) = Stone.Empty := by
  rw [IsValidMove, isInBounds_iff]
  by_cases hb : row < 0 ∨ row ≥ b.size ∨ col < 0 ∨ col ≥ b.size
  · rw [if_pos hb]
    constructor
    · intro h; simp at h
    · intro ⟨h1, _⟩; omega
  · rw [if_neg hb]
    simp only [decide_eq_true_eq]
    constructor
    · intro h; exact ⟨by omega, h⟩
    · rintro ⟨_, h⟩; exact h

/-! ### C4: game over is not terminal in the engine itself -/

/-- The board after two passes on a fresh 3×3 board: the game is over. -/
def overBoard : Board := Pass (Pass (mkBoard 3))

/-- Counterexample to C4: `overBoard` is a finished game (two passes from a
fresh board), yet the accepted placement at `(0,0)` resets the pass counter
and `IsGameOver` becomes `false` again — the engine itself does not make the
`Over` state terminal. -/
theorem game_over_not_terminal_cx :
    ReachableU overBoard ∧ IsGameOver overBoard = true ∧
    (PlaceStone overBoard 0 0).1 = true ∧
    IsGameOver (PlaceStone overBoard 0 0).2 = false :=
  ⟨ReachableU.pass _ (ReachableU.pass _ (ReachableU.start 3)),
    by decide, by decide, by decide⟩

/-- C4 amended: once `passes ≥ 2`, a `Pass` and any rejected `PlaceStone`
keep the game over; only an accepted `PlaceStone` (which the program's
driving loop never issues on a finished game) resets the counter and makes
`IsGameOver` false again. -/
theorem game_over_terminal_amended (b : Board) (h : IsGameOver b = true) :
    IsGameOver (Pass b) = true ∧
    (∀ row col : Int, (PlaceStone b row col).1 = false →
      IsGameOver (PlaceStone b row col).2 = true) ∧
    (∀ row col : Int, (PlaceStone b row col).1 = true →
      IsGameOver (PlaceStone b row col).2 = false) := by
  simp only [IsGameOver, decide_eq_true_eq] at h
  refine ⟨by simp [IsGameOver, Pass]; omega, ?_, ?_⟩
  · intro row col hrej
    obtain ⟨_, hp, _⟩ := placeStone_rejected_fields hrej
    simp [IsGameOver, hp]
    omega
  · intro row col hacc
    obtain ⟨_, _, hsnd⟩ := placeStone_accepted hacc
    have hp : (PlaceStone b row col).2.passes = 0 := by rw [hsnd]
    simp [IsGameOver, hp]

/-- Witness for the amended C4 at the concrete finished board. -/
theorem game_over_terminal_amended_witness :
    IsGameOver overBoard = true ∧ IsGameOver (Pass overBoard) = true :=
  ⟨by decide, (game_over_terminal_amended overBoard (by decide)).1⟩

/-! ### C5: the pass counter under unrestricted and guarded calls -/

/-- The board after three passes in a row on a fresh 3×3 board. -/
def threePassBoard : Board := Pass (Pass (Pass (mkBoard 3)))

/-- Counterexample to C5: three consecutive passes are a legal call sequence
for the engine (nothing guards `Pass` on a finished game), and they drive
`consecutivePasses` to 3 — outside `[0, 2]` — while `IsGameOver` is `true`
with `passes ≠ 2`, refuting both conjuncts of the claim. -/
theorem passes_exceed_two_cx :
    ReachableU threePassBoard ∧ threePassBoard.passes = 3 ∧
    ¬(threePassBoard.passes ≤ 2) ∧
    IsGameOver threePassBoard = true ∧ threePassBoard.passes ≠ 2 :=
  ⟨ReachableU.pass _ (ReachableU.pass _ (ReachableU.pass _ (ReachableU.start 3))),
    by decide, by decide, by decide, by decide⟩

/-- C5 amended: under the calling discipline of the driving loop (no
operation is invoked once the game is over), `consecutivePasses` stays in
`[0, 2]` and the game is over exactly when it equals 2. -/
theorem guarded_passes_invariant (b : Board) (h : ReachableG b) :
    (0 ≤ b.passes ∧ b.passes ≤ 2) ∧ (IsGameOver b = true ↔ b.passes = 2) := by
  induction h with
  | start size => simp [mkBoard, IsGameOver]
  | place b row col hb hover ih =>
    obtain ⟨⟨i1, i2⟩, _⟩ := ih
    rcases placeStone_cases b row col with ⟨_, _, h3⟩ | ⟨_, _, h3⟩ | ⟨_, h3⟩ <;>
      rw [h3] <;> simp only [IsGameOver, decide_eq_true_eq] <;>
      exact ⟨by constructor <;> omega, by constructor <;> omega⟩
  | pass b hb hover ih =>
    obtain ⟨⟨i1, i2⟩, _⟩ := ih
    have hlt : ¬ b.passes ≥ 2 := by
      simpa [IsGameOver] using hover
    simp only [Pass, IsGameOver, decide_eq_true_eq]
    constructor
    · constructor <;> omega
    · omega

/-- Witness for the amended C5: one guarded pass from a fresh board. -/
theorem guarded_passes_invariant_witness :
    (0 ≤ (Pass (mkBoard 2)).passes ∧ (Pass (mkBoard 2)).passes ≤ 2) ∧
    (IsGameOver (Pass (mkBoard 2)) = true ↔ (Pass (mkBoard 2)).passes = 2) :=
  guarded_passes_invariant _ (ReachableG.pass _ (ReachableG.start 2) (by decide))

/-! ### C7: turn alternation -/

/-- C7: after the `k`-th successful operation (accepted placement or pass),
the player to move is Black for even `k` and White for odd `k`; rejected
placements leave `turn` unchanged and do not count. -/
theorem turn_alternation (b : Board) (k : Nat) (h : ReachN b k) :
    b.turn = (if k % 2 = 0 then Stone.Black else Stone.White) := by
  induction h with
  | start size => simp [mkBoard]
  | placeAcc b row col k hb hacc ih =>
    obtain ⟨_, _, hsnd⟩ := placeStone_accepted hacc
    have ht : (PlaceStone b row col).2.turn = nextTurn b.turn := by rw [hsnd]
    rw [ht, ih]
    rcases Nat.mod_two_eq_zero_or_one k with hk | hk
    · have hk1 : (k + 1) % 2 = 1 := by omega
      simp [hk, hk1, nextTurn]
    · have hk1 : (k + 1) % 2 = 0 := by omega
      simp [hk, hk1, nextTurn]
  | placeRej b row col k hb hrej ih =>
    obtain ⟨ht, _, _⟩ := placeStone_rejected_fields hrej
    rw [ht, ih]
  | pass b k hb ih =>
    show (nextTurn b.turn) = _
    rw [ih]
    rcases Nat.mod_two_eq_zero_or_one k with hk | hk
    · have hk1 : (k + 1) % 2 = 1 := by omega
      simp [hk, hk1, nextTurn]
    · have hk1 : (k + 1) % 2 = 0 := by omega
      simp [hk, hk1, nextTurn]

/-- Witness for C7: after one accepted placement the turn is White. -/
theorem turn_alternation_witness :
    (PlaceStone (mkBoard 5) 2 2).2.turn =
      (if 1 % 2 = 0 then Stone.Black else Stone.White) :=
  turn_alternation _ 1
    (ReachN.placeAcc _ 2 2 0 (ReachN.start 5) (by decide))

/-! ### C8: the spec's concrete 5×5 capture scenario -/

/-- The literal call sequence of the spec's scenario on a fresh 5×5 board:
`placeStone(2,2), (1,2), (2,1), (3,2), (2,3)`. -/
def specSeq1 : Bool × Board := PlaceStone (mkBoard 5) 2 2

def specSeq2 : Bool × Board := PlaceStone specSeq1.2 1 2

def specSeq3 : Bool × Board := PlaceStone specSeq2.2 2 1

def specSeq4 : Bool × Board := PlaceStone specSeq3.2 3 2

def specSeq5 : Bool × Board := PlaceStone specSeq4.2 2 3

/-- Counterexample to C8: because turns alternate, the spec's five calls are
played B, W, B, W, B — not one Black move followed by four White moves — so
after the final call cell `(2,2)` still holds Black's stone (it was never
surrounded by White), not `Empty`; every call in the sequence is accepted. -/
theorem spec_scenario_cx :
    specSeq1.1 = true ∧ specSeq2.1 = true ∧ specSeq3.1 = true ∧
    specSeq4.1 = true ∧ specSeq5.1 = true ∧
    cellAt specSeq5.2.grid (2, 2) = Stone.Black ∧
    cellAt specSeq5.2.grid (2, 2) ≠ Stone.Empty := by
  refine ⟨by decide, by decide, by decide, by decide, by decide, by decide, by decide⟩

/-- The spec's intended capture, realised with Black's intervening moves
played away from the action at `(0,0)`, `(0,1)`, `(0,2)`. -/
def interSeq1 : Bool × Board := PlaceStone (mkBoard 5) 2 2

def interSeq2 : Bool × Board := PlaceStone interSeq1.2 1 2

def interSeq3 : Bool × Board := PlaceStone interSeq2.2 0 0

def interSeq4 : Bool × Board := PlaceStone interSeq3.2 2 1

def interSeq5 : Bool × Board := PlaceStone interSeq4.2 0 1

def interSeq6 : Bool × Board := PlaceStone interSeq5.2 3 2

def interSeq7 : Bool × Board := PlaceStone interSeq6.2 0 2

def interSeq8 : Bool × Board := PlaceStone interSeq7.2 2 3

/-- C8 amended: with turn alternation respected (Black's replies interleaved
at `(0,0)`, `(0,1)`, `(0,2)`), White's four stones at `(1,2)`, `(2,1)`,
`(3,2)`, `(2,3)` do surround Black's single stone at `(2,2)`: the final
White placement `(2,3)` fills its last liberty, cell `(2,2)` becomes `Empty`
immediately after that placement, and all four White stones remain on the
board.  Every call in the sequence is accepted. -/
theorem capture_scenario_amended :
    interSeq1.1 = true ∧ interSeq2.1 = true ∧ interSeq3.1 = true ∧
    interSeq4.1 = true ∧ interSeq5.1 = true ∧ interSeq6.1 = true ∧
    interSeq7.1 = true ∧ interSeq8.1 = true ∧
    cellAt interSeq8.2.grid (2, 2) = Stone.Empty ∧
    cellAt interSeq8.2.grid (1, 2) = Stone.White ∧
    cellAt interSeq8.2.grid (2, 1) = Stone.White ∧
    cellAt interSeq8.2.grid (3, 2) = Stone.White ∧
    cellAt interSeq8.2.grid (2, 3) = Stone.White := by
  refine ⟨by decide, by decide, by decide, by decide, by decide, by decide,
    by decide, by decide, by decide, by decide, by decide, by decide, by decide⟩

/-! ### C9: construction -/

/-- Counterexample to C9: size `0` is non-positive, yet `NewBoard 0`
succeeds (Go's `make` accepts length 0), producing a `0×0` game state
rather than failing at construction time. -/
theorem newBoard_zero_cx :
    NewBoard 0 = some (mkBoard 0) ∧ ¬(0 < (0 : Int)) ∧
    (mkBoard 0).grid = [] ∧ (mkBoard 0).turn = Stone.Black := by
  refine ⟨by simp [NewBoard], by decide, by decide, by decide⟩

lemma mkBoard_wf (size : Int) : WFGrid size (mkBoard size).grid :=
  ⟨by simp [mkBoard], fun row hrow => by
    rw [List.eq_of_mem_replicate hrow]; simp⟩

lemma mkBoard_cellAt (size : Int) (p : Pos) :
    cellAt (mkBoard size).grid p = Stone.Empty := by
  unfold cellAt mkBoard
  simp only [List.getD_eq_getElem?_getD, List.getElem?_replicate]
  by_cases h1 : p.1.toNat < size.toNat
  · rw [if_pos h1]
    simp only [Option.getD_some]
    by_cases h2 : p.2.toNat < size.toNat
    · simp [List.getElem?_replicate, h2]
    · simp [List.getElem?_replicate, h2]
  · rw [if_neg h1]
    simp

/-- C9 amended: construction fails (a run-time `make` panic) exactly for
negative sizes; every size `≥ 0` — including `0` — is accepted and yields a
`size × size` board with every cell `Empty` and Black to move. -/
theorem newBoard_amended (size : Int) :
    (size < 0 → NewBoard size = none) ∧
    (0 ≤ size → NewBoard size = some (mkBoard size) ∧
      (mkBoard size).size = size ∧ (mkBoard size).turn = Stone.Black ∧
      (mkBoard size).passes = 0 ∧ WFGrid size (mkBoard size).grid ∧
      ∀ p : Pos, cellAt (mkBoard size).grid p = Stone.Empty) := by
  constructor
  · intro h; simp [NewBoard, h]
  · intro h
    exact ⟨by simp [NewBoard]; omega, rfl, rfl, rfl, mkBoard_wf size,
      mkBoard_cellAt size⟩

/-- Witness for the amended C9 at sizes `-1` and `3`. -/
theorem newBoard_amended_witness :
    NewBoard (-1) = none ∧ NewBoard 3 = some (mkBoard 3) :=
  ⟨(newBoard_amended (-1)).1 (by decide),
    ((newBoard_amended 3).2 (by decide)).1⟩

/-! ### Connected groups and liberties, declaratively -/

/-- `Reach g n p r`: `r` is joined to `p` by a chain of edge-adjacent
in-bounds cells all holding the same value as the previous cell — i.e. `r`
lies in the maximal 4-connected same-owner group of `p`. -/
inductive Reach (g : Grid) (n : Int) : Pos → Pos → Prop where
  | refl (p : Pos) : Reach g n p p
  | tail {p q r : Pos} : Reach g n p q → r ∈ neighbors q →
      isInBounds n r = true → cellAt g r = cellAt g q → Reach g n p r

/-- The cell `r` has an in-bounds `Empty` edge-adjacent cell (a liberty). -/
def EmptyNbr (g : Grid) (n : Int) (r : Pos) : Prop :=
  ∃ d ∈ directions, isInBounds n (posAdd r d) = true ∧
    cellAt g (posAdd r d) = Stone.Empty

/-- The maximal same-owner group of `p` has at least one liberty. -/
def GroupHasLiberty (g : Grid) (n : Int) (p : Pos) : Prop :=
  ∃ r, Reach g n p r ∧ EmptyNbr g n r

lemma reach_color {g : Grid} {n : Int} {p r : Pos} (h : Reach g n p r) :
    cellAt g r = cellAt g p := by
  induction h with
  | refl => rfl
  | tail hq hmem hin hc ih => rw [hc]; exact ih

lemma reach_trans {g : Grid} {n : Int} {p q r : Pos}
    (h1 : Reach g n p q) (h2 : Reach g n q r) : Reach g n p r := by
  induction h2 with
  | refl => exact h1
  | tail hq hmem hin hc ih => exact Reach.tail ih hmem hin hc

lemma reach_inBounds {g : Grid} {n : Int} {p r : Pos}
    (h : Reach g n p r) (hp : isInBounds n p = true) : isInBounds n r = true := by
  induction h with
  | refl => exact hp
  | tail hq hmem hin hc ih => exact hin

lemma posAdd_mem_neighbors (p : Pos) {d : Dir} (hd : d ∈ directions) :
    posAdd p d ∈ neighbors p :=
  List.mem_map_of_mem (posAdd p) hd

lemma directions_cases {d : Dir} (hd : d ∈ directions) :
    d = (-1, 0) ∨ d = (1, 0) ∨ d = (0, -1) ∨ d = (0, 1) := by
  simpa [directions] using hd

lemma mem_neighbors_elim {p q : Pos} (h : q ∈ neighbors p) :
    ∃ d ∈ directions, q = posAdd p d := by
  simp only [neighbors, List.mem_map] at h
  obtain ⟨d, hd, hq⟩ := h
  exact ⟨d, hd, hq.symm⟩

lemma neighbors_symm {p q : Pos} (h : q ∈ neighbors p) : p ∈ neighbors q := by
  obtain ⟨d, hd, hq⟩ := mem_neighbors_elim h
  subst hq
  rcases directions_cases hd with h | h | h | h <;> subst h <;>
    simp only [neighbors, directions, posAdd, List.mem_map, List.mem_cons,
      List.mem_singleton, List.not_mem_nil]
  · exact ⟨(1, 0), by simp, by apply Prod.ext <;> simp⟩
  · exact ⟨(-1, 0), by simp, by apply Prod.ext <;> simp⟩
  · exact ⟨(0, 1), by simp, by apply Prod.ext <;> simp⟩
  · exact ⟨(0, -1), by simp, by apply Prod.ext <;> simp⟩

/-! ### Soundness of the `hasLiberties` search: a `true` answer exhibits a
real liberty of the group of the starting cell. -/

lemma hasLibLoopF_sound {g : Grid} {n : Int}
    {recur : Pos → List Pos → Bool × List Pos} {p : Pos}
    (hrec : ∀ q v, (recur q v).1 = true → ∃ r, Reach g n q r ∧ EmptyNbr g n r) :
    ∀ (ds : List Dir), (∀ d ∈ ds, d ∈ directions) → ∀ (visited : List Pos),
      (hasLibLoopF g n recur (cellAt g p) p ds visited).1 = true →
      ∃ r, Reach g n p r ∧ EmptyNbr g n r := by
  intro ds
  induction ds with
  | nil => intro _ visited h; simp [hasLibLoopF] at h
  | cons d ds ih =>
    intro hds visited h
    have hd0 : d ∈ directions := hds d (List.mem_cons_self d ds)
    have hds' : ∀ x ∈ ds, x ∈ directions := fun x hx => hds x (List.mem_cons_of_mem d hx)
    simp only [hasLibLoopF] at h
    by_cases hin : isInBounds n (posAdd p d) = true
    · rw [if_pos hin] at h
      by_cases hemp : cellAt g (posAdd p d) = Stone.Empty
      · exact ⟨p, Reach.refl p, d, hd0, hin, hemp⟩
      · rw [if_neg hemp] at h
        by_cases hst : cellAt g (posAdd p d) = cellAt g p
        · rw [if_pos hst] at h
          rcases hm : recur (posAdd p d) visited with ⟨bb, v⟩
          rw [hm] at h
          cases bb
          · exact ih hds' v h
          · obtain ⟨r, hr, hlib⟩ := hrec _ _ (by rw [hm])
            exact ⟨r, reach_trans
              (Reach.tail (Reach.refl p) (posAdd_mem_neighbors p hd0) hin hst) hr, hlib⟩
        · rw [if_neg hst] at h
          exact ih hds' visited h
    · rw [if_neg hin] at h
      exact ih hds' visited h

lemma hasLibertiesAux_sound {g : Grid} {n : Int} :
    ∀ (fuel : Nat) (p : Pos) (visited : List Pos),
      (hasLibertiesAux g n fuel p visited).1 = true →
      ∃ r, Reach g n p r ∧ EmptyNbr g n r := by
  intro fuel
  induction fuel with
  | zero => intro p visited h; simp [hasLibertiesAux] at h
  | succ fuel ih =>
    intro p visited h
    simp only [hasLibertiesAux] at h
    by_cases hv : p ∈ visited
    · rw [if_pos hv] at h; simp at h
    · rw [if_neg hv] at h
      exact hasLibLoopF_sound (fun q v hq => ih q v hq) directions (fun d hd => hd) _ h

/-- If `hasLiberties` answers `true`, the group of the start cell really has
a liberty. -/
lemma hasLiberties_sound {g : Grid} {n : Int} {p : Pos}
    (h : hasLiberties g n p = true) : GroupHasLiberty g n p :=
  hasLibertiesAux_sound (searchFuel n) p [] h

/-! ### An `Empty` in-bounds neighbour of the start cell forces `true` -/

lemma hasLibLoopF_true_of_empty {g : Grid} {n : Int}
    {recur : Pos → List Pos → Bool × List Pos} {stone : Stone} {p : Pos} :
    ∀ (ds : List Dir) (visited : List Pos),
      (∃ d ∈ ds, isInBounds n (posAdd p d) = true ∧
        cellAt g (posAdd p d) = Stone.Empty) →
      (hasLibLoopF g n recur stone p ds visited).1 = true := by
  intro ds
  induction ds with
  | nil =>
    rintro visited ⟨d, hd, _⟩
    exact absurd hd (List.not_mem_nil d)
  | cons d ds ih =>
    rintro visited ⟨d0, hd0, hin0, hemp0⟩
    simp only [hasLibLoopF]
    rcases List.mem_cons.mp hd0 with rfl | hmem
    · rw [if_pos hin0, if_pos hemp0]
    · by_cases hin : isInBounds n (posAdd p d) = true
      · rw [if_pos hin]
        by_cases hemp : cellAt g (posAdd p d) = Stone.Empty
        · rw [if_pos hemp]
        · rw [if_neg hemp]
          by_cases hst : cellAt g (posAdd p d) = stone
          · rw [if_pos hst]
            rcases hm : recur (posAdd p d) visited with ⟨bb, v⟩
            cases bb
            · exact ih v ⟨d0, hmem, hin0, hemp0⟩
            · rfl
          · rw [if_neg hst]
            exact ih visited ⟨d0, hmem, hin0, hemp0⟩
      · rw [if_neg hin]
        exact ih visited ⟨d0, hmem, hin0, hemp0⟩

/-- A cell with an in-bounds `Empty` neighbour always passes the liberty
search: the loop reaches that direction and returns `true` there if it has
not already returned `true` earlier. -/
lemma hasLiberties_true_of_emptyNbr {g : Grid} {n : Int} {p : Pos}
    (h : EmptyNbr g n p) : hasLiberties g n p = true := by
  obtain ⟨d, hd, hin, hemp⟩ := h
  unfold hasLiberties searchFuel
  simp only [hasLibertiesAux]
  rw [if_neg (List.not_mem_nil p)]
  exact hasLibLoopF_true_of_empty directions [p] ⟨d, hd, hin, hemp⟩

/-! ### Pointwise effect of `removeGroup` and the capture loop: cells are
either untouched or cleared to `Empty` -/

lemma removeGroupLoopF_pointwise {n : Int} {recur : Grid → Pos → Grid}
    {stone : Stone} {p : Pos}
    (hrec : ∀ (g : Grid) (q x : Pos),
      cellAt (recur g q) x = cellAt g x ∨ cellAt (recur g q) x = Stone.Empty) :
    ∀ (ds : List Dir) (g : Grid) (x : Pos),
      cellAt (removeGroupLoopF n recur stone p ds g) x = cellAt g x ∨
      cellAt (removeGroupLoopF n recur stone p ds g) x = Stone.Empty := by
  intro ds
  induction ds with
  | nil => intro g x; exact Or.inl rfl
  | cons d ds ih =>
    intro g x
    simp only [removeGroupLoopF]
    by_cases hc : isInBounds n (posAdd p d) = true ∧ cellAt g (posAdd p d) = stone
    · rw [if_pos hc]
      rcases ih (recur g (posAdd p d)) x with h | h
      · rcases hrec g (posAdd p d) x with h2 | h2
        · exact Or.inl (h.trans h2)
        · exact Or.inr (h.trans h2)
      · exact Or.inr h
    · rw [if_neg hc]
      exact ih g x

lemma removeGroupAux_pointwise {n : Int} :
    ∀ (fuel : Nat) (g : Grid) (p x : Pos),
      cellAt (removeGroupAux n fuel g p) x = cellAt g x ∨
      cellAt (removeGroupAux n fuel g p) x = Stone.Empty := by
  intro fuel
  induction fuel with
  | zero => intro g p x; exact Or.inl rfl
  | succ fuel ih =>
    intro g p x
    simp only [removeGroupAux]
    by_cases hs : cellAt g p = Stone.Empty
    · rw [if_pos hs]; exact Or.inl rfl
    · rw [if_neg hs]
      rcases removeGroupLoopF_pointwise (fun g q x => ih g q x) directions
          (setCell g p Stone.Empty) x with h | h
      · rcases cellAt_setCell_pointwise g p x Stone.Empty with h2 | h2
        · exact Or.inl (by rw [h, h2])
        · exact Or.inr (by rw [h, h2])
      · exact Or.inr h

lemma removeGroup_pointwise (g : Grid) (n : Int) (p x : Pos) :
    cellAt (removeGroup g n p) x = cellAt g x ∨
    cellAt (removeGroup g n p) x = Stone.Empty :=
  removeGroupAux_pointwise (searchFuel n) g p x

/-- A coordinate holding a non-`Empty` value is within the underlying lists
(off-list reads default to `Empty`). -/
lemma cellAt_ne_empty_lt {g : Grid} {p : Pos} (h : cellAt g p ≠ Stone.Empty) :
    p.1.toNat < g.length ∧ p.2.toNat < (g.getD p.1.toNat []).length := by
  by_cases h1 : p.1.toNat < g.length
  · refine ⟨h1, ?_⟩
    by_cases h2 : p.2.toNat < (g.getD p.1.toNat []).length
    · exact h2
    · exfalso
      apply h
      unfold cellAt
      rw [List.getD_eq_getElem?_getD (g.getD p.1.toNat []),
        List.getElem?_eq_none (by omega)]
      rfl
  · exfalso
    apply h
    unfold cellAt
    rw [List.getD_eq_getElem?_getD g, List.getElem?_eq_none (by omega)]
    simp

/-- `removeGroup` really clears its starting cell (when it holds a stone). -/
lemma removeGroup_start_empty {g : Grid} {n : Int} {p : Pos}
    (h : cellAt g p ≠ Stone.Empty) :
    cellAt (removeGroup g n p) p = Stone.Empty := by
  unfold removeGroup searchFuel
  simp only [removeGroupAux]
  rw [if_neg h]
  obtain ⟨h1, h2⟩ := cellAt_ne_empty_lt h
  have hset : cellAt (setCell g p Stone.Empty) p = Stone.Empty :=
    cellAt_setCell_self g p Stone.Empty h1 h2
  rcases removeGroupLoopF_pointwise
      (fun g q x => removeGroupAux_pointwise (n.toNat * n.toNat) g q x) directions
      (setCell g p Stone.Empty) p with hh | hh
  · rw [hh, hset]
  · exact hh

lemma captureStep_pointwise (n : Int) (opp : Stone) (p0 : Pos) (g : Grid)
    (d : Dir) (x : Pos) :
    cellAt (captureStep n opp p0 g d) x = cellAt g x ∨
    cellAt (captureStep n opp p0 g d) x = Stone.Empty := by
  unfold captureStep
  by_cases hc : isInBounds n (posAdd p0 d) = true ∧ cellAt g (posAdd p0 d) = opp
  · rw [if_pos hc]
    by_cases hl : hasLiberties g n (posAdd p0 d) = false
    · rw [if_pos hl]
      exact removeGroup_pointwise g n (posAdd p0 d) x
    · rw [if_neg hl]
      exact Or.inl rfl
  · rw [if_neg hc]
    exact Or.inl rfl

lemma captureLoop_pointwise (n : Int) (opp : Stone) (p0 : Pos) :
    ∀ (ds : List Dir) (g : Grid) (x : Pos),
      cellAt (captureLoop n opp p0 ds g) x = cellAt g x ∨
      cellAt (captureLoop n opp p0 ds g) x = Stone.Empty := by
  intro ds
  induction ds with
  | nil => intro g x; exact Or.inl rfl
  | cons d ds ih =>
    intro g x
    simp only [captureLoop]
    rcases ih (captureStep n opp p0 g d) x with h | h
    · rcases captureStep_pointwise n opp p0 g d x with h2 | h2
      · exact Or.inl (by rw [h, h2])
      · exact Or.inr (by rw [h, h2])
    · exact Or.inr h

lemma captureLoop_empty_persist {n : Int} {opp : Stone} {p0 : Pos}
    {ds : List Dir} {g : Grid} {x : Pos} (hx : cellAt g x = Stone.Empty) :
    cellAt (captureLoop n opp p0 ds g) x = Stone.Empty := by
  rcases captureLoop_pointwise n opp p0 ds g x with h | h
  · rw [h, hx]
  · exact h

lemma opponentOf_ne_empty (s : Stone) : opponentOf s ≠ Stone.Empty := by
  unfold opponentOf
  split <;> simp

/-- The dichotomy of the capture loop: either no group is removed — the grid
comes back unchanged and every in-bounds opponent neighbour it examined
passed the liberty check — or some in-bounds opponent neighbour of the
placed cell fired a capture, and that neighbour cell reads `Empty` in the
final grid. -/
lemma captureLoop_cases (n : Int) (opp : Stone) (p0 : Pos)
    (hopp : opp ≠ Stone.Empty) :
    ∀ (ds : List Dir) (g : Grid),
      (captureLoop n opp p0 ds g = g ∧
        ∀ d ∈ ds, isInBounds n (posAdd p0 d) = true →
          cellAt g (posAdd p0 d) = opp → hasLiberties g n (posAdd p0 d) = true)
      ∨ (∃ d ∈ ds, isInBounds n (posAdd p0 d) = true ∧
          cellAt g (posAdd p0 d) = opp ∧
          cellAt (captureLoop n opp p0 ds g) (posAdd p0 d) = Stone.Empty) := by
  intro ds
  induction ds with
  | nil => intro g; exact Or.inl ⟨rfl, fun d hd => absurd hd (List.not_mem_nil d)⟩
  | cons d ds ih =>
    intro g
    simp only [captureLoop]
    by_cases hc : isInBounds n (posAdd p0 d) = true ∧ cellAt g (posAdd p0 d) = opp
    · by_cases hl : hasLiberties g n (posAdd p0 d) = false
      · right
        refine ⟨d, List.mem_cons_self d ds, hc.1, hc.2, ?_⟩
        have hstep : captureStep n opp p0 g d = removeGroup g n (posAdd p0 d) := by
          unfold captureStep
          rw [if_pos hc, if_pos hl]
        rw [hstep]
        exact captureLoop_empty_persist
          (removeGroup_start_empty (by rw [hc.2]; exact hopp))
      · have hl' : hasLiberties g n (posAdd p0 d) = true := by
          rcases Bool.eq_false_or_eq_true (hasLiberties g n (posAdd p0 d)) with h | h
          · exact h
          · exact absurd h hl
        have hstep : captureStep n opp p0 g d = g := by
          unfold captureStep
          rw [if_pos hc, if_neg hl]
        rw [hstep]
        rcases ih g with ⟨he, hchk⟩ | ⟨d0, hd0, h1, h2, h3⟩
        · left
          refine ⟨he, ?_⟩
          intro d1 hd1 hin hcell
          rcases List.mem_cons.mp hd1 with rfl | hmem
          · exact hl'
          · exact hchk d1 hmem hin hcell
        · right
          exact ⟨d0, List.mem_cons_of_mem d hd0, h1, h2, h3⟩
    · have hstep : captureStep n opp p0 g d = g := by
        unfold captureStep
        rw [if_neg hc]
      rw [hstep]
      rcases ih g with ⟨he, hchk⟩ | ⟨d0, hd0, h1, h2, h3⟩
      · left
        refine ⟨he, ?_⟩
        intro d1 hd1 hin hcell
        rcases List.mem_cons.mp hd1 with rfl | hmem
        · exact absurd ⟨hin, hcell⟩ hc
        · exact hchk d1 hmem hin hcell
      · right
        exact ⟨d0, List.mem_cons_of_mem d hd0, h1, h2, h3⟩

/-! ### C1: rejected moves leave the state unchanged -/

lemma list_set_getD {a : Type} (l : List a) :
    ∀ (i : Nat) (d : a), l.set i (l.getD i d) = l := by
  induction l with
  | nil => intro i d; rfl
  | cons x xs ih =>
    intro i d
    cases i with
    | zero => rfl
    | succ i =>
      show x :: xs.set i ((x :: xs).getD (i + 1) d) = x :: xs
      rw [List.getD_cons_succ, ih i d]

/-- Writing a stone onto an `Empty` cell and then clearing that same cell
reproduces the original grid exactly — the source's suicide rollback
`b.grid[row][col] = Empty` undoes the tentative placement. -/
lemma setCell_setCell_cancel {g : Grid} {p : Pos} {s : Stone}
    (h : cellAt g p = Stone.Empty) :
    setCell (setCell g p s) p Stone.Empty = g := by
  unfold setCell
  by_cases hrow : p.1.toNat < g.length
  · rw [getD_set_self g p.1.toNat _ [] hrow, List.set_set, List.set_set]
    have h' : (g.getD p.1.toNat []).getD p.2.toNat Stone.Empty = Stone.Empty := h
    have e1 : (g.getD p.1.toNat []).set p.2.toNat Stone.Empty =
        (g.getD p.1.toNat []).set p.2.toNat
          ((g.getD p.1.toNat []).getD p.2.toNat Stone.Empty) := by rw [h']
    rw [e1, list_set_getD, list_set_getD]
  · have e1 : g.set p.1.toNat ((g.getD p.1.toNat []).set p.2.toNat s) = g :=
      List.set_eq_of_length_le (by omega)
    rw [e1]
    exact List.set_eq_of_length_le (by omega)

/-- Shared content of C1: a rejected `PlaceStone` returns the input board.
In the suicide path this holds because a fired capture would have left an
`Empty` in-bounds neighbour next to the placed stone, making the suicide
check succeed; so on a suicide rejection the capture loop removed nothing
and the rollback write restores the original grid exactly. -/
lemma placeStone_rejected_eq {b : Board} {row col : Int}
    (h : (PlaceStone b row col).1 = false) :
    (PlaceStone b row col).2 = b := by
  rcases placeStone_cases b row col with ⟨_, _, h3⟩ | ⟨hv, hl, h3⟩ | ⟨_, h3⟩
  · rw [h3] at h; simp at h
  · rw [h3]
    rcases captureLoop_cases b.size (opponentOf b.turn) (row, col)
        (opponentOf_ne_empty b.turn) directions (setCell b.grid (row, col) b.turn)
      with ⟨heq, _⟩ | ⟨d0, hd0, h1, h2, h3'⟩
    · have hgrid : postCapture b row col = setCell b.grid (row, col) b.turn := heq
      have hcell : cellAt b.grid (row, col) = Stone.Empty := (isValidMove_iff.mp hv).2
      have hundo : setCell (postCapture b row col) (row, col) Stone.Empty = b.grid := by
        rw [hgrid]
        exact setCell_setCell_cancel hcell
      rw [hundo]
    · exfalso
      have : hasLiberties (postCapture b row col) b.size (row, col) = true :=
        hasLiberties_true_of_emptyNbr ⟨d0, hd0, h1, h3'⟩
      rw [this] at hl
      simp at hl
  · rw [h3]

/-- C1: whenever `PlaceStone` rejects (out of bounds, occupied, or suicide),
the returned state is the input state: every grid cell reads the same,
`turn` and `passes` are unchanged — in fact the whole `Board` value is
unchanged. -/
theorem placeStone_rejected_state_unchanged (b : Board) (row col : Int)
    (h : (PlaceStone b row col).1 = false) :
    (∀ p : Pos, cellAt (PlaceStone b row col).2.grid p = cellAt b.grid p) ∧
    (PlaceStone b row col).2.turn = b.turn ∧
    (PlaceStone b row col).2.passes = b.passes ∧
    (PlaceStone b row col).2 = b := by
  have hmain : (PlaceStone b row col).2 = b := placeStone_rejected_eq h
  exact ⟨fun p => by rw [hmain], by rw [hmain], by rw [hmain], hmain⟩

/-- Witness for C1 at a concrete rejected (out-of-bounds) call. -/
theorem placeStone_rejected_state_unchanged_witness :
    (PlaceStone (mkBoard 3) (-1) 0).1 = false ∧
    (PlaceStone (mkBoard 3) (-1) 0).2 = mkBoard 3 :=
  ⟨by decide, (placeStone_rejected_state_unchanged (mkBoard 3) (-1) 0 (by decide)).2.2.2⟩

/-! ### C3 and C10: captures resolve before the suicide check -/

/-- C3: a legal-coordinate placement that leaves some edge-adjacent opponent
group (here: the group of neighbour `(row,col)+d` in the grid holding the
tentative stone) with zero liberties is always accepted: the capture fires
before the suicide check, and the removed group vacates a cell adjacent to
the placed stone. -/
theorem capture_enables_placement (b : Board) (row col : Int)
    (hv : IsValidMove b row col = true)
    (hcap : ∃ d ∈ directions,
      isInBounds b.size (posAdd (row, col) d) = true ∧
      cellAt (setCell b.grid (row, col) b.turn) (posAdd (row, col) d) =
        opponentOf b.turn ∧
      ¬ GroupHasLiberty (setCell b.grid (row, col) b.turn) b.size
        (posAdd (row, col) d)) :
    (PlaceStone b row col).1 = true := by
  obtain ⟨d, hd, hin, hoppc, hnolib⟩ := hcap
  rcases captureLoop_cases b.size (opponentOf b.turn) (row, col)
      (opponentOf_ne_empty b.turn) directions (setCell b.grid (row, col) b.turn)
    with ⟨heq, hchk⟩ | ⟨d0, hd0, h1, h2, h3⟩
  · exact absurd (hasLiberties_sound (hchk d hd hin hoppc)) hnolib
  · have hlib : hasLiberties (postCapture b row col) b.size (row, col) = true :=
      hasLiberties_true_of_emptyNbr ⟨d0, hd0, h1, h3⟩
    rcases placeStone_cases b row col with ⟨_, _, h3'⟩ | ⟨_, hl, _⟩ | ⟨hv', _⟩
    · rw [h3']
    · rw [hlib] at hl; simp at hl
    · rw [hv] at hv'; simp at hv'

/-- C10: if the capture loop removed anything at all (the post-capture grid
differs from the grid with just the tentative stone), the move is accepted,
and some captured opponent cell edge-adjacent to the placed stone is now
`Empty` — the liberty that defeats the suicide check. -/
theorem capture_implies_accepted (b : Board) (row col : Int)
    (hv : IsValidMove b row col = true)
    (hchange : postCapture b row col ≠ setCell b.grid (row, col) b.turn) :
    (PlaceStone b row col).1 = true ∧
    ∃ d ∈ directions, isInBounds b.size (posAdd (row, col) d) = true ∧
      cellAt (setCell b.grid (row, col) b.turn) (posAdd (row, col) d) =
        opponentOf b.turn ∧
      cellAt (postCapture b row col) (posAdd (row, col) d) = Stone.Empty := by
  rcases captureLoop_cases b.size (opponentOf b.turn) (row, col)
      (opponentOf_ne_empty b.turn) directions (setCell b.grid (row, col) b.turn)
    with ⟨heq, _⟩ | ⟨d0, hd0, h1, h2, h3⟩
  · exact absurd heq hchange
  · have hlib : hasLiberties (postCapture b row col) b.size (row, col) = true :=
      hasLiberties_true_of_emptyNbr ⟨d0, hd0, h1, h3⟩
    refine ⟨?_, d0, hd0, h1, h2, h3⟩
    rcases placeStone_cases b row col with ⟨_, _, h3'⟩ | ⟨_, hl, _⟩ | ⟨hv', _⟩
    · rw [h3']
    · rw [hlib] at hl; simp at hl
    · rw [hv] at hv'; simp at hv'

/-- A 3×3 position reached by Black `(0,1)` then White `(0,0)`: Black to
move, and White's corner stone has `(1,0)` as its one remaining liberty. -/
def cornerBoard : Board := (PlaceStone (PlaceStone (mkBoard 3) 0 1).2 0 0).2

lemma cornerBoard_reach_single :
    ∀ r, Reach (setCell cornerBoard.grid (1, 0) cornerBoard.turn)
        cornerBoard.size (posAdd (1, 0) (-1, 0)) r →
      r = posAdd (1, 0) (-1, 0) := by
  have hp : posAdd (1, 0) (-1, 0) = ((0 : Int), (0 : Int)) := by decide
  rw [hp]
  intro r hr
  induction hr with
  | refl => rfl
  | tail hq hmem hin hc ih =>
    subst ih
    obtain ⟨d, hd, hr'⟩ := mem_neighbors_elim hmem
    subst hr'
    rcases directions_cases hd with h | h | h | h <;> subst h
    · exact absurd hin (by decide)
    · exact absurd hc (by decide)
    · exact absurd hin (by decide)
    · exact absurd hc (by decide)

lemma cornerBoard_nolib :
    ¬ GroupHasLiberty (setCell cornerBoard.grid (1, 0) cornerBoard.turn)
      cornerBoard.size (posAdd (1, 0) (-1, 0)) := by
  rintro ⟨r, hr, hlib⟩
  rw [cornerBoard_reach_single r hr] at hlib
  obtain ⟨d, hd, hin, hemp⟩ := hlib
  rcases directions_cases hd with h | h | h | h <;> subst h
  · exact absurd hin (by decide)
  · exact absurd hemp (by decide)
  · exact absurd hin (by decide)
  · exact absurd hemp (by decide)

/-- Witness for C3: Black's play at `(1,0)` fills the last liberty of
White's corner stone and is accepted even though `(1,0)`'s own liberties
come only from the capture. -/
theorem capture_enables_placement_witness :
    (PlaceStone cornerBoard 1 0).1 = true :=
  capture_enables_placement cornerBoard 1 0 (by decide)
    ⟨(-1, 0), by decide, by decide, by decide, cornerBoard_nolib⟩

/-- Witness for C10 at the same corner capture. -/
theorem capture_implies_accepted_witness :
    (PlaceStone cornerBoard 1 0).1 = true ∧
    ∃ d ∈ directions, isInBounds cornerBoard.size (posAdd (1, 0) d) = true ∧
      cellAt (setCell cornerBoard.grid (1, 0) cornerBoard.turn) (posAdd (1, 0) d) =
        opponentOf cornerBoard.turn ∧
      cellAt (postCapture cornerBoard 1 0) (posAdd (1, 0) d) = Stone.Empty :=
  capture_implies_accepted cornerBoard 1 0 (by decide) (by decide)

/-! ### C6: the result of `PlaceStone` carries no rejection reason -/

/-- A 3×3 position in which White to move at the empty in-bounds corner
`(0,0)` is rejected as suicide. -/
def suicideBoard : Board :=
  (PlaceStone (PlaceStone (PlaceStone (mkBoard 3) 0 1).2 2 2).2 1 0).2

/-- Counterexample to C6: three calls rejected for the three different
causes — out of bounds (`row = -1`), occupied (target `(1,1)` holds a
stone), and suicide (valid empty corner whose placement would have no
liberties) — all return the identical value `false`: the `bool` result of
`PlaceStone` carries no reason and the caller cannot distinguish the
causes from it. -/
theorem reject_reason_indistinguishable_cx :
    ((-1 : Int) < 0) ∧
    cellAt (PlaceStone (mkBoard 3) 1 1).2.grid (1, 1) ≠ Stone.Empty ∧
    IsValidMove suicideBoard 0 0 = true ∧
    (PlaceStone (mkBoard 3) (-1) 0).1 = false ∧
    (PlaceStone (PlaceStone (mkBoard 3) 1 1).2 1 1).1 = false ∧
    (PlaceStone suicideBoard 0 0).1 = false ∧
    (PlaceStone (mkBoard 3) (-1) 0).1 =
      (PlaceStone (PlaceStone (mkBoard 3) 1 1).2 1 1).1 ∧
    (PlaceStone (PlaceStone (mkBoard 3) 1 1).2 1 1).1 =
      (PlaceStone suicideBoard 0 0).1 := by
  refine ⟨by decide, by decide, by decide, by decide, by decide, by decide,
    by decide, by decide⟩

/-- C6 amended: `PlaceStone` returns a bare boolean — `true` on success and
`false` exactly when the coordinate is out of bounds, or the target cell is
occupied, or the move fails the post-capture liberty (suicide) check; the
returned value does not identify which of the three causes applied. -/
theorem placeStone_reject_iff (b : Board) (row col : Int) :
    (PlaceStone b row col).1 = false ↔
      (isInBounds b.size (row, col) = false ∨
        cellAt b.grid (row, col) ≠ Stone.Empty ∨
        hasLiberties (postCapture b row col) b.size (row, col) = false) := by
  constructor
  · intro h
    rcases placeStone_cases b row col with ⟨_, _, h3⟩ | ⟨hv, hl, _⟩ | ⟨hv, _⟩
    · rw [h3] at h; simp at h
    · exact Or.inr (Or.inr hl)
    · rcases Bool.eq_false_or_eq_true (isInBounds b.size (row, col)) with hb | hb
      · right; left
        intro hemp
        have : IsValidMove b row col = true := isValidMove_iff.mpr ⟨hb, hemp⟩
        rw [this] at hv
        simp at hv
      · exact Or.inl hb
  · intro h
    rcases placeStone_cases b row col with ⟨hv, hl, h3⟩ | ⟨_, _, h3⟩ | ⟨_, h3⟩
    · exfalso
      obtain ⟨hb, hemp⟩ := isValidMove_iff.mp hv
      rcases h with h | h | h
      · rw [hb] at h; simp at h
      · exact h hemp
      · rw [hl] at h; simp at h
    · rw [h3]
    · rw [h3]

/-! ### C2: no group on the board is ever left without liberties -/

/-- No cell of the board holds a stone whose maximal 4-connected same-owner
group has zero liberties. -/
def NoDeadGroups (b : Board) : Prop :=
  ∀ p : Pos, isInBounds b.size p = true → cellAt b.grid p ≠ Stone.Empty →
    GroupHasLiberty b.grid b.size p

lemma nextTurn_cases (s : Stone) :
    nextTurn s = Stone.Black ∨ nextTurn s = Stone.White := by
  unfold nextTurn
  split
  · exact Or.inr rfl
  · exact Or.inl rfl

/-! #### The engine operations preserve the grid's `n × n` shape -/

lemma removeGroupLoopF_wf {n : Int} {recur : Grid → Pos → Grid}
    {stone : Stone} {p : Pos}
    (hrec : ∀ g q, WFGrid n g → WFGrid n (recur g q)) :
    ∀ (ds : List Dir) (g : Grid), WFGrid n g →
      WFGrid n (removeGroupLoopF n recur stone p ds g) := by
  intro ds
  induction ds with
  | nil => intro g hg; exact hg
  | cons d ds ih =>
    intro g hg
    simp only [removeGroupLoopF]
    by_cases hc : isInBounds n (posAdd p d) = true ∧ cellAt g (posAdd p d) = stone
    · rw [if_pos hc]
      exact ih _ (hrec g _ hg)
    · rw [if_neg hc]
      exact ih g hg

lemma removeGroupAux_wf {n : Int} :
    ∀ (fuel : Nat) (g : Grid) (p : Pos), WFGrid n g →
      WFGrid n (removeGroupAux n fuel g p) := by
  intro fuel
  induction fuel with
  | zero => intro g p hg; exact hg
  | succ fuel ih =>
    intro g p hg
    simp only [removeGroupAux]
    by_cases hs : cellAt g p = Stone.Empty
    · rw [if_pos hs]; exact hg
    · rw [if_neg hs]
      exact removeGroupLoopF_wf (fun g q hq => ih g q hq) directions _
        (WFGrid_setCell hg p Stone.Empty)

lemma captureStep_wf {n : Int} {opp : Stone} {p0 : Pos} {g : Grid} {d : Dir}
    (hg : WFGrid n g) : WFGrid n (captureStep n opp p0 g d) := by
  unfold captureStep
  by_cases hc : isInBounds n (posAdd p0 d) = true ∧ cellAt g (posAdd p0 d) = opp
  · rw [if_pos hc]
    by_cases hl : hasLiberties g n (posAdd p0 d) = false
    · rw [if_pos hl]
      exact removeGroupAux_wf (searchFuel n) g _ hg
    · rw [if_neg hl]; exact hg
  · rw [if_neg hc]; exact hg

lemma captureLoop_wf {n : Int} {opp : Stone} {p0 : Pos} :
    ∀ (ds : List Dir) (g : Grid), WFGrid n g →
      WFGrid n (captureLoop n opp p0 ds g) := by
  intro ds
  induction ds with
  | nil => intro g hg; exact hg
  | cons d ds ih =>
    intro g hg
    simp only [captureLoop]
    exact ih _ (captureStep_wf hg)

lemma postCapture_wf {b : Board} {row col : Int} (hwf : WFGrid b.size b.grid) :
    WFGrid b.size (postCapture b row col) :=
  captureLoop_wf directions _ (WFGrid_setCell hwf (row, col) b.turn)

/-! #### Transferring group chains between grids -/

/-- If the two grids agree on all cells of the chain's colour, a chain
carries over unchanged. -/
lemma reach_congr {g g' : Grid} {n : Int} {p : Pos}
    (hagree : ∀ x, cellAt g x = cellAt g p → cellAt g' x = cellAt g x) :
    ∀ {r : Pos}, Reach g n p r → Reach g' n p r := by
  intro r h
  induction h with
  | refl => exact Reach.refl p
  | @tail q r hq hmem hin hc ih =>
    have hcq : cellAt g q = cellAt g p := reach_color hq
    have hcr : cellAt g r = cellAt g p := by rw [hc, hcq]
    refine Reach.tail ih hmem hin ?_
    rw [hagree r hcr, hagree q hcq, hc]

/-- If the later grid differs from the earlier one only by cells going
`Empty`, then a chain of the earlier grid either survives whole, or the
later grid shows an `Empty` in-bounds cell edge-adjacent to the surviving
prefix — in both cases evidence usable to produce a liberty. -/
lemma reach_transfer {g g' : Grid} {n : Int} {p : Pos}
    (hmono : ∀ x, cellAt g x = cellAt g p →
      cellAt g' x = cellAt g x ∨ cellAt g' x = Stone.Empty)
    (hp : cellAt g' p = cellAt g p) (_hne : cellAt g' p ≠ Stone.Empty) :
    ∀ {r : Pos}, Reach g n p r →
      Reach g' n p r ∨
      ∃ y x, Reach g' n p y ∧ x ∈ neighbors y ∧ isInBounds n x = true ∧
        cellAt g' x = Stone.Empty := by
  intro r h
  induction h with
  | refl => exact Or.inl (Reach.refl p)
  | @tail q r hq hmem hin hc ih =>
    rcases ih with ihl | ihr
    · have hcq : cellAt g q = cellAt g p := reach_color hq
      have hcr : cellAt g r = cellAt g p := by rw [hc, hcq]
      rcases hmono r hcr with hm | hm
      · left
        refine Reach.tail ihl hmem hin ?_
        have hq' : cellAt g' q = cellAt g' p := reach_color ihl
        rw [hm, hcr, ← hp, hq']
      · exact Or.inr ⟨q, r, ihl, hmem, hin, hm⟩
    · exact Or.inr ihr

/-- For each direction processed by the capture loop: either that neighbour
cell ends up `Empty` in the final grid, or there is an intermediate grid
`hd` (the grid at that direction's iteration) lying between the input and
the output in the only-removals order, at which the neighbour, if still an
in-bounds opponent stone, passed the liberty check. -/
lemma captureLoop_each (n : Int) (opp : Stone) (p0 : Pos)
    (hopp : opp ≠ Stone.Empty) :
    ∀ (ds : List Dir) (g : Grid) (d : Dir), d ∈ ds →
      cellAt (captureLoop n opp p0 ds g) (posAdd p0 d) = Stone.Empty ∨
      ∃ hd : Grid,
        (∀ x, cellAt hd x = cellAt g x ∨ cellAt hd x = Stone.Empty) ∧
        (∀ x, cellAt (captureLoop n opp p0 ds g) x = cellAt hd x ∨
          cellAt (captureLoop n opp p0 ds g) x = Stone.Empty) ∧
        (isInBounds n (posAdd p0 d) = true → cellAt hd (posAdd p0 d) = opp →
          hasLiberties hd n (posAdd p0 d) = true) := by
  intro ds
  induction ds with
  | nil => intro g d hd; exact absurd hd (List.not_mem_nil d)
  | cons d1 ds ih =>
    intro g d hdmem
    simp only [captureLoop]
    rcases List.mem_cons.mp hdmem with rfl | hmem
    · by_cases hc : isInBounds n (posAdd p0 d) = true ∧ cellAt g (posAdd p0 d) = opp
      · by_cases hl : hasLiberties g n (posAdd p0 d) = false
        · left
          have hstep : captureStep n opp p0 g d = removeGroup g n (posAdd p0 d) := by
            unfold captureStep
            rw [if_pos hc, if_pos hl]
          rw [hstep]
          exact captureLoop_empty_persist
            (removeGroup_start_empty (by rw [hc.2]; exact hopp))
        · right
          have hl' : hasLiberties g n (posAdd p0 d) = true := by
            rcases Bool.eq_false_or_eq_true (hasLiberties g n (posAdd p0 d)) with h | h
            · exact h
            · exact absurd h hl
          have hstep : captureStep n opp p0 g d = g := by
            unfold captureStep
            rw [if_pos hc, if_neg hl]
          rw [hstep]
          exact ⟨g, fun x => Or.inl rfl,
            fun x => captureLoop_pointwise n opp p0 ds g x,
            fun _ _ => hl'⟩
      · right
        have hstep : captureStep n opp p0 g d = g := by
          unfold captureStep
          rw [if_neg hc]
        rw [hstep]
        exact ⟨g, fun x => Or.inl rfl,
          fun x => captureLoop_pointwise n opp p0 ds g x,
          fun hin hcell => absurd ⟨hin, hcell⟩ hc⟩
    · rcases ih (captureStep n opp p0 g d1) d hmem with h | ⟨hd, hb1, hb2, hchk⟩
      · exact Or.inl h
      · right
        refine ⟨hd, ?_, hb2, hchk⟩
        intro x
        rcases hb1 x with h1 | h1
        · rcases captureStep_pointwise n opp p0 g d1 x with h2 | h2
          · exact Or.inl (by rw [h1, h2])
          · exact Or.inr (by rw [h1, h2])
        · exact Or.inr h1

/-- Among the three stone values, a non-`Empty` value different from a
non-`Empty` mover is the mover's opponent. -/
lemma eq_opponentOf (s t : Stone) : s ≠ Stone.Empty → t ≠ Stone.Empty →
    t ≠ s → t = opponentOf s := by
  cases s <;> cases t <;> decide

/-- The heart of C2: an accepted placement leaves no libertyless group.
Cells connected to the placed stone inherit the liberty exhibited by the
successful suicide check; an untouched friendly group keeps a liberty it
already had (the placed cell cannot have been that liberty, else the group
would be connected to the placed stone); and a surviving opponent group
either keeps an old liberty, gains one from a removed cell on its boundary,
or — when its only liberty was the placed cell itself — was examined by the
capture loop, whose passed liberty check exhibits a liberty that survives
to the final grid. -/
lemma place_accept_no_dead (b : Board) (row col : Int)
    (hturn : b.turn ≠ Stone.Empty)
    (hwf : WFGrid b.size b.grid)
    (hinv : NoDeadGroups b)
    (hv : IsValidMove b row col = true)
    (hsui : hasLiberties (postCapture b row col) b.size (row, col) = true) :
    ∀ p : Pos, isInBounds b.size p = true →
      cellAt (postCapture b row col) p ≠ Stone.Empty →
      GroupHasLiberty (postCapture b row col) b.size p := by
  have hrc_in : isInBounds b.size ((row, col) : Pos) = true := (isValidMove_iff.mp hv).1
  have hrc0 : cellAt b.grid (row, col) = Stone.Empty := (isValidMove_iff.mp hv).2
  have hrc_lt := isInBounds_lt hrc_in hwf
  have hg1rc : cellAt (setCell b.grid (row, col) b.turn) (row, col) = b.turn :=
    cellAt_setCell_self b.grid (row, col) b.turn hrc_lt.1 hrc_lt.2
  have h21 : ∀ x, cellAt (postCapture b row col) x =
      cellAt (setCell b.grid (row, col) b.turn) x ∨
      cellAt (postCapture b row col) x = Stone.Empty :=
    fun x => captureLoop_pointwise b.size (opponentOf b.turn) (row, col) directions
      (setCell b.grid (row, col) b.turn) x
  -- the tentative placement does not disturb any cell that holds a stone
  have hg1_offrc : ∀ x, cellAt b.grid x ≠ Stone.Empty →
      cellAt (setCell b.grid (row, col) b.turn) x = cellAt b.grid x := by
    intro x hx
    apply cellAt_setCell_ne
    by_contra hcon
    push_neg at hcon
    exact hx ((cellAt_of_idx_eq b.grid hcon.1 hcon.2).symm.trans hrc0)
  intro p hpin hpne
  have hsud : GroupHasLiberty (postCapture b row col) b.size (row, col) :=
    hasLiberties_sound hsui
  by_cases hconn : Reach (postCapture b row col) b.size p (row, col)
  · obtain ⟨r, hr, hlib⟩ := hsud
    exact ⟨r, reach_trans hconn hr, hlib⟩
  · have hp21 : cellAt (postCapture b row col) p =
        cellAt (setCell b.grid (row, col) b.turn) p := by
      rcases h21 p with h | h
      · exact h
      · exact absurd h hpne
    have hpne_rc : p ≠ ((row, col) : Pos) := fun he => hconn (he ▸ Reach.refl p)
    have hne_idx : (row, col).1.toNat ≠ p.1.toNat ∨ (row, col).2.toNat ≠ p.2.toNat := by
      by_contra hcon
      push_neg at hcon
      exact hpne_rc (isInBounds_pos_eq hpin hrc_in hcon.1.symm hcon.2.symm)
    have hp10 : cellAt (setCell b.grid (row, col) b.turn) p = cellAt b.grid p :=
      cellAt_setCell_ne b.grid (row, col) p b.turn hne_idx
    by_cases hcol : cellAt (postCapture b row col) p = b.turn
    · -- a mover-coloured cell not connected to the placed stone
      have h00 : cellAt b.grid p = b.turn := by rw [← hp10, ← hp21, hcol]
      obtain ⟨m, hm0, d, hd, hin, hemp⟩ := hinv p hpin (by rw [h00]; exact hturn)
      have hmono : ∀ x, cellAt b.grid x = cellAt b.grid p →
          cellAt (postCapture b row col) x = cellAt b.grid x ∨
          cellAt (postCapture b row col) x = Stone.Empty := by
        intro x hx
        have hx1 : cellAt (setCell b.grid (row, col) b.turn) x = cellAt b.grid x :=
          hg1_offrc x (by rw [hx, h00]; exact hturn)
        rcases h21 x with h | h
        · exact Or.inl (by rw [h, hx1])
        · exact Or.inr h
      have hp' : cellAt (postCapture b row col) p = cellAt b.grid p := by
        rw [hcol, h00]
      rcases reach_transfer hmono hp' hpne hm0 with hR | ⟨y, x, hy, hxm, hxin, hxe⟩
      · by_cases he_rc : posAdd m d = ((row, col) : Pos)
        · rcases h21 (row, col) with h2rc | h2rc
          · exfalso
            apply hconn
            refine Reach.tail hR (he_rc ▸ posAdd_mem_neighbors m hd) hrc_in ?_
            have hgm : cellAt (postCapture b row col) m =
                cellAt (postCapture b row col) p := reach_color hR
            rw [h2rc, hg1rc, hgm, hcol]
          · exact ⟨m, hR, d, hd, by rw [he_rc]; exact hrc_in, by rw [he_rc]; exact h2rc⟩
        · have hemp_ne : (row, col).1.toNat ≠ (posAdd m d).1.toNat ∨
              (row, col).2.toNat ≠ (posAdd m d).2.toNat := by
            by_contra hcon
            push_neg at hcon
            exact he_rc (isInBounds_pos_eq hin hrc_in hcon.1.symm hcon.2.symm)
          have he1 : cellAt (setCell b.grid (row, col) b.turn) (posAdd m d) =
              Stone.Empty := by
            rw [cellAt_setCell_ne b.grid (row, col) _ b.turn hemp_ne]
            exact hemp
          have he2 : cellAt (postCapture b row col) (posAdd m d) = Stone.Empty := by
            rcases h21 (posAdd m d) with h | h
            · rw [h, he1]
            · exact h
          exact ⟨m, hR, d, hd, hin, he2⟩
      · obtain ⟨d2, hd2, hx_eq⟩ := mem_neighbors_elim hxm
        exact ⟨y, hy, d2, hd2, by rw [← hx_eq]; exact hxin, by rw [← hx_eq]; exact hxe⟩
    · -- an opponent-coloured cell
      have hopp_p : cellAt (postCapture b row col) p = opponentOf b.turn :=
        eq_opponentOf b.turn (cellAt (postCapture b row col) p) hturn hpne hcol
      have hopp_ne : opponentOf b.turn ≠ Stone.Empty := opponentOf_ne_empty b.turn
      have hp1 : cellAt (setCell b.grid (row, col) b.turn) p = opponentOf b.turn := by
        rw [← hp21, hopp_p]
      have hp0 : cellAt b.grid p = opponentOf b.turn := by rw [← hp10, hp1]
      obtain ⟨m, hm0, d, hd, hin, hemp⟩ := hinv p hpin (by rw [hp0]; exact hopp_ne)
      have hm1 : Reach (setCell b.grid (row, col) b.turn) b.size p m := by
        refine reach_congr ?_ hm0
        intro x hx
        exact hg1_offrc x (by rw [hx, hp0]; exact hopp_ne)
      have hmono12 : ∀ x,
          cellAt (setCell b.grid (row, col) b.turn) x =
            cellAt (setCell b.grid (row, col) b.turn) p →
          cellAt (postCapture b row col) x =
            cellAt (setCell b.grid (row, col) b.turn) x ∨
          cellAt (postCapture b row col) x = Stone.Empty := fun x _ => h21 x
      rcases reach_transfer hmono12 hp21 hpne hm1 with hm2 | ⟨y, x, hy, hxm, hxin, hxe⟩
      · by_cases he_rc : posAdd m d = ((row, col) : Pos)
        · -- the group's exhibited liberty was the placed cell itself
          have hm_nbr : ∃ d0 ∈ directions, m = posAdd (row, col) d0 := by
            have hmem : ((row, col) : Pos) ∈ neighbors m := by
              rw [← he_rc]
              exact posAdd_mem_neighbors m hd
            exact mem_neighbors_elim (neighbors_symm hmem)
          obtain ⟨d0, hd0, hm_eq⟩ := hm_nbr
          have hm_alive : cellAt (postCapture b row col) m = opponentOf b.turn := by
            have hcl := reach_color hm2
            rw [hcl, hopp_p]
          rcases captureLoop_each b.size (opponentOf b.turn) (row, col) hopp_ne
              directions (setCell b.grid (row, col) b.turn) d0 hd0
            with hEmp | ⟨hdg, hb1, hb2, hchk⟩
          · exfalso
            rw [← hm_eq] at hEmp
            exact hopp_ne (hm_alive.symm.trans hEmp)
          · have hb2' : ∀ x, cellAt (postCapture b row col) x = cellAt hdg x ∨
                cellAt (postCapture b row col) x = Stone.Empty := hb2
            have hdm : cellAt hdg m = opponentOf b.turn := by
              rcases hb2 m with h | h
              · rw [← h]; exact hm_alive
              · exact absurd (hm_alive.symm.trans h) hopp_ne
            have hm_in : isInBounds b.size m = true := reach_inBounds hm2 hpin
            have hlibm : hasLiberties hdg b.size m = true := by
              have := hchk (by rw [← hm_eq]; exact hm_in) (by rw [← hm_eq]; exact hdm)
              rw [← hm_eq] at this
              exact this
            obtain ⟨r, hr_d, d2, hd2, hin2, hemp2⟩ := hasLiberties_sound hlibm
            have hmono_d : ∀ x, cellAt hdg x = cellAt hdg m →
                cellAt (postCapture b row col) x = cellAt hdg x ∨
                cellAt (postCapture b row col) x = Stone.Empty := fun x _ => hb2 x
            have hp_d : cellAt (postCapture b row col) m = cellAt hdg m := by
              rw [hm_alive, hdm]
            rcases reach_transfer hmono_d hp_d (by rw [hm_alive]; exact hopp_ne) hr_d
              with hr2 | ⟨y, x, hy, hxm, hxin, hxe⟩
            · have he2 : cellAt (postCapture b row col) (posAdd r d2) = Stone.Empty := by
                rcases hb2' (posAdd r d2) with h | h
                · rw [h, hemp2]
                · exact h
              exact ⟨r, reach_trans hm2 hr2, d2, hd2, hin2, he2⟩
            · obtain ⟨d3, hd3, hx_eq⟩ := mem_neighbors_elim hxm
              exact ⟨y, reach_trans hm2 hy, d3, hd3,
                by rw [← hx_eq]; exact hxin, by rw [← hx_eq]; exact hxe⟩
        · -- the old liberty is not the placed cell, so it survives
          have hemp_ne : (row, col).1.toNat ≠ (posAdd m d).1.toNat ∨
              (row, col).2.toNat ≠ (posAdd m d).2.toNat := by
            by_contra hcon
            push_neg at hcon
            exact he_rc (isInBounds_pos_eq hin hrc_in hcon.1.symm hcon.2.symm)
          have he1 : cellAt (setCell b.grid (row, col) b.turn) (posAdd m d) =
              Stone.Empty := by
            rw [cellAt_setCell_ne b.grid (row, col) _ b.turn hemp_ne]
            exact hemp
          have he2 : cellAt (postCapture b row col) (posAdd m d) = Stone.Empty := by
            rcases h21 (posAdd m d) with h | h
            · rw [h, he1]
            · exact h
          exact ⟨m, hm2, d, hd, hin, he2⟩
      · obtain ⟨d2, hd2, hx_eq⟩ := mem_neighbors_elim hxm
        exact ⟨y, hy, d2, hd2, by rw [← hx_eq]; exact hxin, by rw [← hx_eq]; exact hxe⟩

/-- The invariant carried through the reachability induction: a legal turn
value, a well-shaped grid, and no dead groups. -/
def EngineInv (b : Board) : Prop :=
  (b.turn = Stone.Black ∨ b.turn = Stone.White) ∧
  WFGrid b.size b.grid ∧ NoDeadGroups b

lemma reachableU_inv (b : Board) (h : ReachableU b) : EngineInv b := by
  induction h with
  | start size =>
    refine ⟨Or.inl rfl, mkBoard_wf size, ?_⟩
    intro p hpin hpne
    exact absurd (mkBoard_cellAt size p) hpne
  | place b row col hb ih =>
    obtain ⟨hturn, hwf, hinv⟩ := ih
    rcases Bool.eq_false_or_eq_true (PlaceStone b row col).1 with hacc | hrej
    · obtain ⟨hv, hsui, hsnd⟩ := placeStone_accepted hacc
      rw [hsnd]
      have hturn' : b.turn ≠ Stone.Empty := by
        rcases hturn with h | h <;> simp [h]
      refine ⟨nextTurn_cases b.turn, postCapture_wf hwf, ?_⟩
      intro p hpin hpne
      exact place_accept_no_dead b row col hturn' hwf hinv hv hsui p hpin hpne
    · rw [placeStone_rejected_eq hrej]
      exact ⟨hturn, hwf, hinv⟩
  | pass b hb ih =>
    obtain ⟨hturn, hwf, hinv⟩ := ih
    exact ⟨nextTurn_cases b.turn, hwf, hinv⟩

/-- C2: every state reachable from a fresh board by any sequence of
`PlaceStone` and `Pass` calls has no stone whose maximal 4-connected
same-owner group lacks an empty edge-adjacent cell; the invariant holds
after each call returns. -/
theorem reachable_no_dead_groups (b : Board) (h : ReachableU b) :
    NoDeadGroups b :=
  (reachableU_inv b h).2.2

/-- Witness for C2 on a small concrete reachable state. -/
theorem reachable_no_dead_groups_witness :
    NoDeadGroups (PlaceStone (mkBoard 2) 0 0).2 :=
  reachable_no_dead_groups _ (ReachableU.place (mkBoard 2) 0 0 (ReachableU.start 2))

end GoGame
